import Mathlib

/-!
Verification development for the ksrt schema-registry tool (src/main.rs).

The file embeds the protobuf schema-graph resolver of the tool:

* `strip_comments` — the comment stripper of `strip_comments` in main.rs,
  specialised to the two regexes built in `post_protobuf_schema`:
  the block-comment regex (non-greedy, dot matches newline) and the
  line-comment regex (to end of line, multi-line mode).  Texts are
  modelled as `List Char`.
* `get_protobuf_references` — the recursive reference-graph builder.
  The Rust function recurses along the dependency graph without any
  bound; the embedding adds an explicit recursion-depth counter `fuel`
  that only guards the recursive call (a call that runs out of fuel
  returns an error, which never happens on the acyclic inputs the
  theorems are about).
* `post_protobuf_schema` — root selection, schema-text loading and
  assembly.  Filesystem reads are abstracted by a map `disk` from
  logical file names to file contents; the Rust panics (`expect`,
  `assert_eq`) are modelled as errors.
-/

/-! ## Comment stripper -/

/-- Whether the two characters `a` then `b` occur adjacently in `l`. -/
def hasSub2 (a b : Char) : List Char → Bool
  | [] => false
  | [_] => false
  | c :: d :: rest => (c = a && d = b) || hasSub2 a b (d :: rest)

/-- Leftmost occurrence of the block-comment opener: on success returns
the text before the opener and the text after it.  This is the search
for the start of the leftmost match of the block-comment regex. -/
def findOpen : List Char → Option (List Char × List Char)
  | [] => none
  | [_] => none
  | c :: d :: rest =>
    if c = '/' && d = '*' then some ([], rest)
    else (findOpen (d :: rest)).map (fun p => (c :: p.1, p.2))

/-- Leftmost occurrence of the block-comment closer: returns the text
after it.  Together with `findOpen` this is the non-greedy block-comment
match: the match body ends at the earliest closer. -/
def findClose : List Char → Option (List Char)
  | [] => none
  | [_] => none
  | c :: d :: rest =>
    if c = '*' && d = '/' then some rest
    else findClose (d :: rest)

/-- One pass of the line-comment regex over a gap between block-comment
matches.  The Boolean mode records whether the scan is currently inside
a line-comment match; the match ends before the newline (the regex dot
does not match a newline, and the end-of-line anchor keeps it). -/
def stripLineGo : Bool → List Char → List Char
  | _, [] => []
  | true, c :: rest =>
    if c = '\n' then '\n' :: stripLineGo false rest else stripLineGo true rest
  | false, [c] => [c]
  | false, c :: d :: rest =>
    if c = '/' && d = '/' then stripLineGo true rest
    else c :: stripLineGo false (d :: rest)

/-- Remove every line-comment match from a text. -/
def stripLine (s : List Char) : List Char := stripLineGo false s

theorem findOpen_length : ∀ s gap rest, findOpen s = some (gap, rest) →
    s.length = gap.length + 2 + rest.length := by
  intro s
  induction s with
  | nil => intro gap rest h; simp [findOpen] at h
  | cons c t ih =>
    intro gap rest h
    match t with
    | [] => simp [findOpen] at h
    | d :: u =>
      rw [findOpen] at h
      by_cases hc : c = '/' && d = '*'
      · rw [if_pos hc] at h
        cases h
        simp only [List.length_cons, List.length_nil]
        omega
      · rw [if_neg hc] at h
        match hf : findOpen (d :: u) with
        | none => rw [hf] at h; simp at h
        | some (g', r') =>
          rw [hf] at h
          simp only [Option.map, Option.some.injEq, Prod.mk.injEq] at h
          obtain ⟨hg, hr⟩ := h
          subst hg
          subst hr
          have := ih g' r' hf
          simp only [List.length_cons] at this ⊢
          omega

theorem findClose_length : ∀ s rest, findClose s = some rest →
    rest.length + 2 ≤ s.length := by
  intro s
  induction s with
  | nil => intro rest h; simp [findClose] at h
  | cons c t ih =>
    intro rest h
    match t with
    | [] => simp [findClose] at h
    | d :: u =>
      rw [findClose] at h
      by_cases hc : c = '*' && d = '/'
      · rw [if_pos hc] at h
        cases h
        simp
      · rw [if_neg hc] at h
        have := ih rest h
        simp at this ⊢
        omega

/-- The block-comment loop of `strip_comments`, with an explicit bound
on the number of block-comment matches it may consume.  Each match
consumes at least four characters, so `s.length` is always enough fuel;
`strip_comments` below supplies it. -/
def stripGo : Nat → List Char → List Char
  | 0, s => stripLine s
  | fuel + 1, s =>
    match findOpen s with
    | none => stripLine s
    | some (gap, rest) =>
      match findClose rest with
      | none => stripLine s
      | some rest' => stripLine gap ++ stripGo fuel rest'

/-- The comment stripper of main.rs: iterate over block-comment
matches, apply the line-comment pass to every gap between them (and to
the tail after the last one), and drop the matches themselves.  A text
with no block-comment match is processed by the line-comment pass
alone. -/
def strip_comments (s : List Char) : List Char := stripGo s.length s

/-- Whether the block-comment regex has a match in `s`: an opener whose
remainder contains a closer.  A later opener cannot have a closer when
the leftmost one does not, so checking the leftmost opener suffices. -/
def hasBlock (s : List Char) : Bool :=
  match findOpen s with
  | none => false
  | some (_, rest) => (findClose rest).isSome

theorem stripGo_congr : ∀ fuel fuel' s, s.length ≤ fuel → s.length ≤ fuel' →
    stripGo fuel s = stripGo fuel' s := by
  intro fuel
  induction fuel with
  | zero =>
    intro fuel' s hs hs'
    have : s = [] := List.eq_nil_of_length_eq_zero (Nat.le_zero.mp hs)
    subst this
    cases fuel' <;> simp [stripGo, stripLine, stripLineGo, findOpen]
  | succ n ih =>
    intro fuel' s hs hs'
    match fuel' with
    | 0 =>
      have : s = [] := List.eq_nil_of_length_eq_zero (Nat.le_zero.mp hs')
      subst this
      simp [stripGo, stripLine, stripLineGo, findOpen]
    | m + 1 =>
      match ho : findOpen s with
      | none => simp only [stripGo, ho]
      | some (gap, rest) =>
        match hc : findClose rest with
        | none => simp only [stripGo, ho, hc]
        | some rest' =>
          have h1 := findOpen_length s gap rest ho
          have h2 := findClose_length rest rest' hc
          simp only [stripGo, ho, hc]
          rw [ih m rest' (by omega) (by omega)]

/-- Unfolding equation for `strip_comments` in terms of the leftmost
block-comment match. -/
theorem strip_comments_eq (s : List Char) :
    strip_comments s =
      match findOpen s with
      | none => stripLine s
      | some (gap, rest) =>
        match findClose rest with
        | none => stripLine s
        | some rest' => stripLine gap ++ strip_comments rest' := by
  unfold strip_comments
  match ho : findOpen s with
  | none =>
    match hl : s.length with
    | 0 => simp only [stripGo, ho]
    | n + 1 => simp only [stripGo, ho]
  | some (gap, rest) =>
    have h1 := findOpen_length s gap rest ho
    match hc : findClose rest with
    | none =>
      match hl : s.length with
      | 0 => omega
      | n + 1 => simp only [stripGo, ho, hc]
    | some rest' =>
      have h2 := findClose_length rest rest' hc
      match hl : s.length with
      | 0 => omega
      | n + 1 =>
        simp only [stripGo, ho, hc]
        rw [stripGo_congr n rest'.length rest' (by omega) (Nat.le_refl _)]

/-! ## Lemmas about the two regex searches -/

theorem hasSub2_elem (a b : Char) : ∀ u v, hasSub2 a b (u ++ a :: b :: v) = true := by
  intro u
  induction u with
  | nil => intro v; simp [hasSub2]
  | cons x u' ih =>
    intro v
    match hu : u' ++ a :: b :: v with
    | [] => exact absurd hu (by simp)
    | y :: t =>
      rw [List.cons_append, hu, hasSub2, ← hu, ih v]
      simp

theorem hasSub2_append_right (a b : Char) :
    ∀ u v, hasSub2 a b v = true → hasSub2 a b (u ++ v) = true := by
  intro u
  induction u with
  | nil => intro v h; simpa using h
  | cons x u' ih =>
    intro v h
    match hu : u' ++ v with
    | [] => simp at hu; exact absurd (hu.2 ▸ h) (by simp [hasSub2])
    | y :: t =>
      rw [List.cons_append, hu, hasSub2, ← hu, ih v h]
      simp

theorem hasSub2_cons (a b x : Char) (t : List Char) (h : hasSub2 a b t = true) :
    hasSub2 a b (x :: t) = true :=
  hasSub2_append_right a b [x] t h

theorem hasSub2_exists (a b : Char) :
    ∀ l, hasSub2 a b l = true → ∃ u v, l = u ++ a :: b :: v := by
  intro l
  induction l with
  | nil => intro h; simp [hasSub2] at h
  | cons c t ih =>
    intro h
    match t with
    | [] => simp [hasSub2] at h
    | d :: u =>
      rw [hasSub2] at h
      rcases Bool.or_eq_true_iff.mp h with h1 | h2
      · obtain ⟨hc, hd⟩ := Bool.and_eq_true_iff.mp h1
        refine ⟨[], u, ?_⟩
        simp [decide_eq_true_eq.mp hc, decide_eq_true_eq.mp hd]
      · obtain ⟨u', v', he⟩ := ih h2
        exact ⟨c :: u', v', by rw [he]; simp⟩

theorem findOpen_some_decomp :
    ∀ l g r, findOpen l = some (g, r) → l = g ++ '/' :: '*' :: r := by
  intro l
  induction l with
  | nil => intro g r h; simp [findOpen] at h
  | cons c t ih =>
    intro g r h
    match t with
    | [] => simp [findOpen] at h
    | d :: u =>
      rw [findOpen] at h
      by_cases hc : c = '/' && d = '*'
      · rw [if_pos hc] at h
        obtain ⟨h1, h2⟩ := Bool.and_eq_true_iff.mp hc
        cases h
        simp [decide_eq_true_eq.mp h1, decide_eq_true_eq.mp h2]
      · rw [if_neg hc] at h
        match hf : findOpen (d :: u) with
        | none => rw [hf] at h; simp at h
        | some (g', r') =>
          rw [hf] at h
          simp only [Option.map, Option.some.injEq, Prod.mk.injEq] at h
          obtain ⟨hg, hr⟩ := h
          subst hg
          subst hr
          rw [List.cons_append, ← ih g' r' hf]

theorem findClose_some_decomp :
    ∀ l r, findClose l = some r → ∃ u, l = u ++ '*' :: '/' :: r := by
  intro l
  induction l with
  | nil => intro r h; simp [findClose] at h
  | cons c t ih =>
    intro r h
    match t with
    | [] => simp [findClose] at h
    | d :: u =>
      rw [findClose] at h
      by_cases hc : c = '*' && d = '/'
      · rw [if_pos hc] at h
        obtain ⟨h1, h2⟩ := Bool.and_eq_true_iff.mp hc
        cases h
        exact ⟨[], by simp [decide_eq_true_eq.mp h1, decide_eq_true_eq.mp h2]⟩
      · rw [if_neg hc] at h
        obtain ⟨u', he⟩ := ih r h
        exact ⟨c :: u', by rw [he]; simp⟩

theorem findClose_isSome_of_hasSub2 :
    ∀ l, hasSub2 '*' '/' l = true → (findClose l).isSome = true := by
  intro l
  induction l with
  | nil => intro h; simp [hasSub2] at h
  | cons c t ih =>
    intro h
    match t with
    | [] => simp [hasSub2] at h
    | d :: u =>
      rw [hasSub2] at h
      rw [findClose]
      by_cases hc : c = '*' && d = '/'
      · rw [if_pos hc]; simp
      · rw [if_neg hc]
        rcases Bool.or_eq_true_iff.mp h with h1 | h2
        · exact absurd h1 hc
        · exact ih h2

theorem findOpen_append :
    ∀ a r, hasSub2 '/' '*' a = false → findOpen (a ++ '/' :: '*' :: r) = some (a, r) := by
  intro a
  induction a with
  | nil => intro r _; simp [findOpen]
  | cons x a' ih =>
    intro r ha
    match a' with
    | [] =>
      show findOpen (x :: '/' :: '*' :: r) = some ([x], r)
      rw [findOpen]
      have hx : (x = '/' && ('/' : Char) = '*') = false := by simp
      rw [hx]
      simp only [Bool.false_eq_true, if_false]
      rw [show ('/' :: '*' :: r : List Char) = [] ++ '/' :: '*' :: r from rfl,
        ih r (by simp [hasSub2])]
      simp
    | y :: a'' =>
      rw [List.cons_append, List.cons_append, findOpen]
      rw [hasSub2] at ha
      have h1 : (x = '/' && y = '*') = false := by
        cases hxy : (decide (x = '/') && decide (y = '*')) with
        | false => rfl
        | true => rw [hxy] at ha; simp at ha
      have h2 : hasSub2 '/' '*' (y :: a'') = false := by
        cases h2' : hasSub2 '/' '*' (y :: a'') with
        | false => rfl
        | true => rw [h2'] at ha; simp at ha
      have := ih r h2
      rw [List.cons_append] at this
      rw [h1]
      simp only [Bool.false_eq_true, if_false, this]
      simp

theorem findClose_append :
    ∀ b c, hasSub2 '*' '/' b = false → findClose (b ++ '*' :: '/' :: c) = some c := by
  intro b
  induction b with
  | nil => intro c _; simp [findClose]
  | cons x b' ih =>
    intro c hb
    match b' with
    | [] =>
      show findClose (x :: '*' :: '/' :: c) = some c
      rw [findClose]
      have hx : (x = '*' && ('*' : Char) = '/') = false := by simp
      rw [hx]
      simp only [Bool.false_eq_true, if_false]
      rw [show ('*' :: '/' :: c : List Char) = [] ++ '*' :: '/' :: c from rfl,
        ih c (by simp [hasSub2])]
    | y :: b'' =>
      rw [List.cons_append, List.cons_append, findClose]
      rw [hasSub2] at hb
      have h1 : (x = '*' && y = '/') = false := by
        cases hxy : (decide (x = '*') && decide (y = '/')) with
        | false => rfl
        | true => rw [hxy] at hb; simp at hb
      have h2 : hasSub2 '*' '/' (y :: b'') = false := by
        cases h2' : hasSub2 '*' '/' (y :: b'') with
        | false => rfl
        | true => rw [h2'] at hb; simp at hb
      have := ih c h2
      rw [List.cons_append] at this
      rw [h1]
      simp only [Bool.false_eq_true, if_false, this]

/-! ## Lemmas about block-comment matches -/

theorem hasBlock_cons (x : Char) (t : List Char) (h : hasBlock t = true) :
    hasBlock (x :: t) = true := by
  unfold hasBlock at h
  match ho : findOpen t with
  | none =>
    rw [ho] at h
    exact absurd (show (false : Bool) = true from h) (by simp)
  | some (g, r) =>
    rw [ho] at h
    have h' : (findClose r).isSome = true := h
    have hdec := findOpen_some_decomp t g r ho
    match hcl : findClose r with
    | none => rw [hcl] at h'; simp at h'
    | some r' =>
      obtain ⟨u, hu⟩ := findClose_some_decomp r r' hcl
      match t with
      | [] => simp [findOpen] at ho
      | y :: t₂ =>
        unfold hasBlock
        rw [findOpen]
        by_cases hxy : x = '/' && y = '*'
        · rw [if_pos hxy]
          have hy : y = '*' := decide_eq_true_eq.mp (Bool.and_eq_true_iff.mp hxy).2
          subst hy
          -- the opener found inside t lies beyond the head, so the closer
          -- of that match witnesses a closer after the new opener as well
          match g with
          | [] => simp at hdec
          | z :: g₂ =>
            have ht₂ : t₂ = g₂ ++ '/' :: '*' :: r := by
              have := hdec
              simp only [List.cons_append, List.cons.injEq] at this
              exact this.2
            have hsub : hasSub2 '*' '/' t₂ = true := by
              rw [ht₂, hu]
              have : g₂ ++ '/' :: '*' :: (u ++ '*' :: '/' :: r') =
                  (g₂ ++ '/' :: '*' :: u) ++ '*' :: '/' :: r' := by simp
              rw [this]
              exact hasSub2_elem '*' '/' _ _
            have := findClose_isSome_of_hasSub2 t₂ hsub
            simpa using this
        · rw [if_neg hxy, ho]
          simpa using h'

theorem hasBlock_append_left (v : List Char) (h : hasBlock v = true) :
    ∀ u, hasBlock (u ++ v) = true := by
  intro u
  induction u with
  | nil => simpa using h
  | cons x u' ih => rw [List.cons_append]; exact hasBlock_cons x _ ih

theorem hasBlock_elem :
    ∀ a b c, hasBlock (a ++ '/' :: '*' :: (b ++ '*' :: '/' :: c)) = true := by
  intro a b c
  apply hasBlock_append_left
  unfold hasBlock
  rw [show (('/' :: '*' :: (b ++ '*' :: '/' :: c)) : List Char) =
    [] ++ '/' :: '*' :: (b ++ '*' :: '/' :: c) from rfl, findOpen_append]
  · have := findClose_isSome_of_hasSub2 (b ++ '*' :: '/' :: c)
      (hasSub2_elem '*' '/' b c)
    simpa using this
  · simp [hasSub2]

theorem hasBlock_decomp (l : List Char) (h : hasBlock l = true) :
    ∃ a b c, l = a ++ '/' :: '*' :: (b ++ '*' :: '/' :: c) := by
  unfold hasBlock at h
  match ho : findOpen l with
  | none =>
    rw [ho] at h
    exact absurd (show (false : Bool) = true from h) (by simp)
  | some (g, r) =>
    rw [ho] at h
    have h' : (findClose r).isSome = true := h
    match hcl : findClose r with
    | none => rw [hcl] at h'; simp at h'
    | some r' =>
      obtain ⟨u, hu⟩ := findClose_some_decomp r r' hcl
      exact ⟨g, u, r', by rw [findOpen_some_decomp l g r ho, hu]⟩

/-! ## Lemmas about the line-comment pass -/

theorem stripLineGo_skip_struct :
    ∀ r, stripLineGo true r = [] ∨
      ∃ u r', r = u ++ '\n' :: r' ∧ stripLineGo true r = '\n' :: stripLineGo false r' := by
  intro r
  induction r with
  | nil => left; rfl
  | cons c t ih =>
    by_cases hc : c = '\n'
    · right
      subst hc
      exact ⟨[], t, by simp, by rw [stripLineGo, if_pos rfl]⟩
    · have hs : stripLineGo true (c :: t) = stripLineGo true t := by
        rw [stripLineGo, if_neg hc]
      rcases ih with h | ⟨u, r', hu, hr⟩
      · left; rw [hs, h]
      · right
        exact ⟨c :: u, r', by rw [hu]; simp, by rw [hs, hr]⟩

theorem stripLineGo_cons_inv :
    ∀ s c t, c ≠ '\n' → stripLineGo false s = c :: t →
      ∃ s', s = c :: s' ∧ t = stripLineGo false s' ∧
        (c = '/' → ∀ s'', s' ≠ '/' :: s'') := by
  intro s c t hc h
  match s with
  | [] => simp [stripLineGo] at h
  | [x] =>
    rw [stripLineGo] at h
    injection h with h1 h2
    subst h1
    refine ⟨[], rfl, ?_, ?_⟩
    · rw [← h2]; rfl
    · intro _ s'' hne
      simp at hne
  | x :: d :: u =>
    by_cases hxd : x = '/' && d = '/'
    · rw [stripLineGo, if_pos hxd] at h
      rcases stripLineGo_skip_struct u with h0 | ⟨w, r', hw, hr⟩
      · rw [h0] at h
        exact absurd h (by simp)
      · rw [hr] at h
        injection h with h1 h2
        exact absurd h1.symm hc
    · rw [stripLineGo, if_neg hxd] at h
      injection h with h1 h2
      subst h1
      refine ⟨d :: u, rfl, h2.symm, ?_⟩
      intro hcl s'' hne
      injection hne with hd hu
      exact hxd (by rw [hcl, hd]; simp)

theorem stripLine_no_dslash (s : List Char) :
    ∀ t, stripLineGo false s ≠ '/' :: '/' :: t := by
  intro t h
  obtain ⟨s', hs, ht, hsl⟩ := stripLineGo_cons_inv s '/' ('/' :: t) (by decide) h
  obtain ⟨s'', hs'', _, _⟩ := stripLineGo_cons_inv s' '/' t (by decide) ht.symm
  exact hsl rfl s'' hs''

theorem stripLine_tail (s : List Char) :
    ∀ c t, stripLineGo false s = c :: t →
      ∃ s', s'.length < s.length ∧ t = stripLineGo false s' := by
  intro c t h
  match s with
  | [] => simp [stripLineGo] at h
  | [x] =>
    rw [stripLineGo] at h
    injection h with h1 h2
    refine ⟨[], by simp, ?_⟩
    rw [← h2]
    rfl
  | x :: d :: u =>
    by_cases hxd : x = '/' && d = '/'
    · rw [stripLineGo, if_pos hxd] at h
      rcases stripLineGo_skip_struct u with h0 | ⟨w, r', hw, hr⟩
      · rw [h0] at h
        exact absurd h (by simp)
      · rw [hr] at h
        injection h with h1 h2
        refine ⟨r', ?_, h2.symm⟩
        have hu : u.length = w.length + r'.length + 1 := by
          rw [hw]; simp [List.length_append]; omega
        simp only [List.length_cons]
        omega
    · rw [stripLineGo, if_neg hxd] at h
      injection h with h1 h2
      exact ⟨d :: u, by simp, h2.symm⟩

theorem stripLine_no_dslash_sub :
    ∀ n s, s.length ≤ n → hasSub2 '/' '/' (stripLineGo false s) = false := by
  intro n
  induction n with
  | zero =>
    intro s hs
    have : s = [] := List.eq_nil_of_length_eq_zero (Nat.le_zero.mp hs)
    subst this
    rfl
  | succ n ih =>
    intro s hs
    match hsl : stripLineGo false s with
    | [] => rfl
    | [c] => rfl
    | c :: d :: t =>
      rw [hasSub2]
      have h1 : (c = '/' && d = '/') = false := by
        cases hcd : (decide (c = '/') && decide (d = '/')) with
        | false => rfl
        | true =>
          obtain ⟨hc, hd⟩ := Bool.and_eq_true_iff.mp hcd
          rw [decide_eq_true_eq.mp hc, decide_eq_true_eq.mp hd] at hsl
          exact absurd hsl (stripLine_no_dslash s t)
      obtain ⟨s', hlen, ht⟩ := stripLine_tail s c (d :: t) hsl
      rw [h1, ht, ih s' (by omega)]
      rfl

theorem stripLine_of_no_dslash :
    ∀ s, hasSub2 '/' '/' s = false → stripLineGo false s = s := by
  intro s
  induction s with
  | nil => intro _; rfl
  | cons c t ih =>
    intro h
    match t with
    | [] => rfl
    | d :: u =>
      rw [hasSub2] at h
      have h1 : (c = '/' && d = '/') = false := by
        cases hcd : (decide (c = '/') && decide (d = '/')) with
        | false => rfl
        | true => rw [hcd] at h; simp at h
      have h2 : hasSub2 '/' '/' (d :: u) = false := by
        cases h2' : hasSub2 '/' '/' (d :: u) with
        | false => rfl
        | true => rw [h2'] at h; simp at h
      rw [stripLineGo, if_neg (by simp [h1]), ih h2]

theorem stripLine_idem (s : List Char) : stripLine (stripLine s) = stripLine s :=
  stripLine_of_no_dslash _ (stripLine_no_dslash_sub s.length s (Nat.le_refl _))

theorem hasSub2_stripLine (a b : Char) (ha : a ≠ '\n') (hb : b ≠ '\n') :
    ∀ n s, s.length ≤ n → hasSub2 a b (stripLineGo false s) = true →
      hasSub2 a b s = true := by
  intro n
  induction n with
  | zero =>
    intro s hs h
    have : s = [] := List.eq_nil_of_length_eq_zero (Nat.le_zero.mp hs)
    subst this
    simp [stripLineGo, hasSub2] at h
  | succ n ih =>
    intro s hs h
    match s with
    | [] => simp [stripLineGo, hasSub2] at h
    | [x] =>
      rw [show stripLineGo false [x] = [x] from rfl] at h
      simp [hasSub2] at h
    | x :: d :: u =>
      by_cases hxd : x = '/' && d = '/'
      · rw [stripLineGo, if_pos hxd] at h
        rcases stripLineGo_skip_struct u with h0 | ⟨w, r', hw, hr⟩
        · rw [h0] at h
          simp [hasSub2] at h
        · rw [hr] at h
          match hslr : stripLineGo false r' with
          | [] => rw [hslr] at h; simp [hasSub2] at h
          | e :: t' =>
            rw [hslr, hasSub2] at h
            rcases Bool.or_eq_true_iff.mp h with h1 | h2
            · obtain ⟨hna, _⟩ := Bool.and_eq_true_iff.mp h1
              exact absurd (decide_eq_true_eq.mp hna).symm ha
            · rw [← hslr] at h2
              have hul : u.length = w.length + r'.length + 1 := by
                rw [hw]; simp [List.length_append]; omega
              simp only [List.length_cons] at hs
              have hrec := ih r' (by omega) h2
              rw [hw]
              have heq : x :: d :: (w ++ '\n' :: r') =
                  (x :: d :: (w ++ ['\n'])) ++ r' := by simp
              rw [heq]
              exact hasSub2_append_right a b _ r' hrec
      · rw [stripLineGo, if_neg hxd] at h
        match hslr : stripLineGo false (d :: u) with
        | [] => rw [hslr] at h; simp [hasSub2] at h
        | e :: t' =>
          rw [hslr, hasSub2] at h
          rcases Bool.or_eq_true_iff.mp h with h1 | h2
          · obtain ⟨hxa, heb⟩ := Bool.and_eq_true_iff.mp h1
            have hxa' := decide_eq_true_eq.mp hxa
            have heb' := decide_eq_true_eq.mp heb
            subst heb'
            obtain ⟨s', hs', _, _⟩ := stripLineGo_cons_inv (d :: u) e t' hb hslr
            injection hs' with hd _
            rw [hxa', hd, hasSub2]
            simp
          · rw [← hslr] at h2
            simp only [List.length_cons] at hs
            have hrec := ih (d :: u) (by simp only [List.length_cons]; omega) h2
            exact hasSub2_cons a b x _ hrec

theorem hasBlock_stripLine_rev :
    ∀ n s, s.length ≤ n → hasBlock (stripLineGo false s) = true →
      hasBlock s = true := by
  intro n
  induction n with
  | zero =>
    intro s hs h
    have : s = [] := List.eq_nil_of_length_eq_zero (Nat.le_zero.mp hs)
    subst this
    simp [stripLineGo, hasBlock, findOpen] at h
  | succ n ih =>
    intro s hs h
    match s with
    | [] => simp [stripLineGo, hasBlock, findOpen] at h
    | [x] =>
      rw [show stripLineGo false [x] = [x] from rfl] at h
      simp [hasBlock, findOpen] at h
    | x :: d :: u =>
      by_cases hxd : x = '/' && d = '/'
      · rw [stripLineGo, if_pos hxd] at h
        rcases stripLineGo_skip_struct u with h0 | ⟨w, r', hw, hr⟩
        · rw [h0] at h
          simp [hasBlock, findOpen] at h
        · rw [hr] at h
          obtain ⟨A, B, C, hABC⟩ := hasBlock_decomp _ h
          match A, hABC with
          | [], hABC =>
            rw [List.nil_append] at hABC
            injection hABC with h1 _
            exact absurd h1 (by decide)
          | a0 :: A', hABC =>
            rw [List.cons_append] at hABC
            injection hABC with h1 h2
            have hbr' : hasBlock (stripLineGo false r') = true := by
              rw [h2]; exact hasBlock_elem A' B C
            have hul : u.length = w.length + r'.length + 1 := by
              rw [hw]; simp [List.length_append]; omega
            simp only [List.length_cons] at hs
            have hb := ih r' (by omega) hbr'
            rw [hw]
            have heq : x :: d :: (w ++ '\n' :: r') =
                (x :: d :: (w ++ ['\n'])) ++ r' := by simp
            rw [heq]
            exact hasBlock_append_left r' hb _
      · rw [stripLineGo, if_neg hxd] at h
        obtain ⟨A, B, C, hABC⟩ := hasBlock_decomp _ h
        match A, hABC with
        | [], hABC =>
          rw [List.nil_append] at hABC
          injection hABC with h1 h2
          obtain ⟨s', hs', ht', _⟩ :=
            stripLineGo_cons_inv (d :: u) '*' _ (by decide) h2
          injection hs' with hd hu
          have hsubSL : hasSub2 '*' '/' (stripLineGo false s') = true := by
            rw [← ht']
            exact hasSub2_elem '*' '/' B C
          have hsub : hasSub2 '*' '/' s' = true :=
            hasSub2_stripLine '*' '/' (by decide) (by decide) s'.length s'
              (Nat.le_refl _) hsubSL
          obtain ⟨U, V, hUV⟩ := hasSub2_exists '*' '/' s' hsub
          rw [h1, hd, hu, hUV]
          simpa using hasBlock_elem [] U V
        | a0 :: A', hABC =>
          rw [List.cons_append] at hABC
          injection hABC with h1 h2
          have hblk : hasBlock (stripLineGo false (d :: u)) = true := by
            rw [h2]; exact hasBlock_elem A' B C
          simp only [List.length_cons] at hs
          have hb := ih (d :: u) (by simp only [List.length_cons]; omega) hblk
          exact hasBlock_cons x _ hb

theorem hasBlock_stripLine_false (s : List Char) (h : hasBlock s = false) :
    hasBlock (stripLine s) = false := by
  cases hb : hasBlock (stripLine s) with
  | false => rfl
  | true =>
    exact absurd (hasBlock_stripLine_rev s.length s (Nat.le_refl _) hb)
      (by simp [h])

theorem strip_comments_of_no_block (s : List Char) (h : hasBlock s = false) :
    strip_comments s = stripLine s := by
  rw [strip_comments_eq]
  unfold hasBlock at h
  match ho : findOpen s with
  | none => rfl
  | some (gap, rest) =>
    rw [ho] at h
    have h' : (findClose rest).isSome = false := h
    match hc : findClose rest with
    | none => simp only [hc]
    | some rest' =>
      rw [hc] at h'
      simp at h'

/-! ## Descriptors, references and the reference-graph builder -/

/-- A top-level message declaration of a file descriptor; only its name
is used by the tool. -/
structure DescriptorProto where
  name : Option String
deriving DecidableEq

/-- The part of a protobuf file descriptor the tool reads: logical file
name, optional package, ordered dependency (import) names, and ordered
top-level message types. -/
structure FileDescriptorProto where
  name : Option String
  package : Option String
  dependency : List String
  message_type : List DescriptorProto
deriving DecidableEq

/-- A schema reference supplied to the registry client: import name,
derived subject, schema text, and nested references. -/
inductive SuppliedReference where
  | mk (name subject schema : String) (references : List SuppliedReference)

def SuppliedReference.name : SuppliedReference → String
  | .mk n _ _ _ => n

def SuppliedReference.subject : SuppliedReference → String
  | .mk _ s _ _ => s

def SuppliedReference.schema : SuppliedReference → String
  | .mk _ _ s _ => s

def SuppliedReference.references : SuppliedReference → List SuppliedReference
  | .mk _ _ _ r => r

/-- Schema type of the registry client. -/
inductive SchemaType where
  | Avro
  | Json
  | Protobuf
  | Other (value : String)
deriving DecidableEq

/-- The schema document assembled by the post command. -/
structure SuppliedSchema where
  name : Option String
  schema_type : SchemaType
  schema : String
  references : List SuppliedReference

/-- Joining with a dot separator, as `Vec::join` does for the subject
parts. -/
def joinDot : List String → String
  | [] => ""
  | [x] => x
  | x :: xs => x ++ "." ++ joinDot xs

/-- The subject derived for a dependency: its optional package followed
by the name of its first top-level message type, dot-joined. -/
def subjectOf (fd : FileDescriptorProto) (mt : DescriptorProto) : String :=
  joinDot (fd.package.toList ++ mt.name.toList)

/-- The try_fold of get_protobuf_references: process the dependency
list in order, produce one SuppliedReference per entry, and stop at the
first failure.  `recur` is the recursive call used for the nested
references of each resolved dependency. -/
def foldDependencies
    (recur : FileDescriptorProto → List FileDescriptorProto →
      (String → Option String) → Except String (List SuppliedReference))
    (fds : List FileDescriptorProto) (schemas : String → Option String) :
    List String → Except String (List SuppliedReference)
  | [] => .ok []
  | n :: rest =>
    match fds.find? (fun dep => dep.name == some n) with
    | none => .error ("failed to locate file for dependency: " ++ n)
    | some fd =>
      match fd.message_type with
      | [] => .error ("failed to locate a top-level message type in: " ++ n)
      | mt :: _ =>
        match schemas n with
        | none => .error ("failed to locate schema for: " ++ n)
        | some schema =>
          match recur fd fds schemas with
          | .error e => .error e
          | .ok subRefs =>
            match foldDependencies recur fds schemas rest with
            | .error e => .error e
            | .ok tail =>
              .ok (SuppliedReference.mk n (subjectOf fd mt) schema subRefs :: tail)

/-- get_protobuf_references of main.rs.  The Rust function recurses
with no bound (it relies on the compiler rejecting import cycles); the
embedding guards the recursion with an explicit depth counter and
returns an error when it is exhausted. -/
def get_protobuf_references :
    Nat → FileDescriptorProto → List FileDescriptorProto →
      (String → Option String) → Except String (List SuppliedReference)
  | 0, _, _, _ => .error ("recursion limit exceeded")
  | fuel + 1, fd, fds, schemas =>
    foldDependencies (get_protobuf_references fuel) fds schemas fd.dependency

/-- `strip_comments` lifted to `String`. -/
def stripString (s : String) : String := ⟨strip_comments s.data⟩

/-- The schema-text map construction of post_protobuf_schema: for every
file descriptor in the set, read the text of the named file (the search
over the include directories is abstracted by `disk`) and strip comments
from it exactly when the strip-comments option is set.  Later inserts
shadow earlier ones, as for the HashMap. -/
def buildSchemas (stripc : Bool) (disk : String → Option String) :
    List FileDescriptorProto → (String → Option String) →
      Except String (String → Option String)
  | [], m => .ok m
  | fd :: rest, m =>
    match fd.name with
    | none => .error ("missing name in file descriptor")
    | some name =>
      match disk name with
      | none => .error ("failed to locate file for: " ++ name)
      | some text =>
        buildSchemas stripc disk rest
          (fun k =>
            if k = name then some (if stripc then stripString text else text)
            else m k)

/-- post_protobuf_schema of main.rs, protobuf branch of the post
command.  The compiler invocation is abstracted by giving the decoded
descriptor list `files` directly, and the filesystem by `disk` (one
read per logical file name; the root file is reread raw for the
assembled schema text).  The two Rust panics — popping from an empty
set and the root-name assertion — are modelled as errors. -/
def post_protobuf_schema (stripc : Bool) (files : List FileDescriptorProto)
    (disk : String → Option String) (rootFileName : String) (fuel : Nat) :
    Except String SuppliedSchema :=
  match buildSchemas stripc disk files (fun _ => none) with
  | .error e => .error e
  | .ok schemas =>
    match files.getLast? with
    | none => .error ("at least one file descriptor in the set")
    | some root =>
      if root.name = some rootFileName then
        match disk rootFileName with
        | none => .error ("failed to read schema file: " ++ rootFileName)
        | some text =>
          match get_protobuf_references fuel root files.dropLast schemas with
          | .error e => .error e
          | .ok refs =>
            .ok { name := none, schema_type := SchemaType.Protobuf,
                  schema := text, references := refs }
      else .error ("assertion failed: root file name mismatch")

/-- Node count of a reference forest. -/
def sizeRefs : List SuppliedReference → Nat
  | [] => 0
  | .mk _ _ _ subs :: rest => 1 + sizeRefs subs + sizeRefs rest

/-- The node the builder produces for one dependency name when every
lookup succeeds; it depends only on the name (besides the fixed
descriptor set, schema map and recursion). -/
def nodeOf
    (recur : FileDescriptorProto → List FileDescriptorProto →
      (String → Option String) → Except String (List SuppliedReference))
    (fds : List FileDescriptorProto) (schemas : String → Option String)
    (n : String) : Option SuppliedReference :=
  match fds.find? (fun dep => dep.name == some n) with
  | none => none
  | some fd =>
    match fd.message_type with
    | [] => none
    | mt :: _ =>
      match schemas n with
      | none => none
      | some schema =>
        match recur fd fds schemas with
        | .error _ => none
        | .ok subRefs =>
          some (SuppliedReference.mk n (subjectOf fd mt) schema subRefs)

/-- Modelled from the spec: count of (FileDescriptor,
appearance-in-some-dependency-list) pairs below one dependency list,
shared files counted once per referencing path.  One step of the count;
`recur` counts below one resolved dependency. -/
def countPairsList
    (recur : FileDescriptorProto → List FileDescriptorProto → Option Nat) :
    List String → List FileDescriptorProto → Option Nat
  | [], _ => some 0
  | n :: rest, fds =>
    match fds.find? (fun dep => dep.name == some n) with
    | none => none
    | some fd =>
      match recur fd fds with
      | none => none
      | some c =>
        match countPairsList recur rest fds with
        | none => none
        | some c' => some (1 + c + c')

/-- Modelled from the spec: the number of (FileDescriptor,
appearance-in-some-dependency-list) pairs reachable from one
descriptor, counted once per referencing path, guarded by the same
recursion depth counter as the builder. -/
def specPairCount : Nat → FileDescriptorProto → List FileDescriptorProto → Option Nat
  | 0, _, _ => none
  | fuel + 1, fd, fds => countPairsList (specPairCount fuel) fd.dependency fds

/-- A dependency entry is well-formed for the builder: it resolves to a
descriptor, that descriptor has a leading message type, its schema text
is present, and a given measure strictly decreases (the acyclicity
witness). -/
def goodDep (m : FileDescriptorProto → Nat) (fds : List FileDescriptorProto)
    (schemas : String → Option String) (g : FileDescriptorProto)
    (n : String) : Bool :=
  match fds.find? (fun dep => dep.name == some n) with
  | none => false
  | some r =>
    decide (m r < m g) && decide (r.message_type ≠ []) && (schemas n).isSome

/-! ## Lemmas about the reference-graph builder -/

theorem nodeOf_name (recur : FileDescriptorProto → List FileDescriptorProto →
      (String → Option String) → Except String (List SuppliedReference))
    (fds : List FileDescriptorProto) (schemas : String → Option String)
    (n : String) (node : SuppliedReference)
    (h : nodeOf recur fds schemas n = some node) : node.name = n := by
  match hf : fds.find? (fun dep => dep.name == some n) with
  | none =>
    simp only [nodeOf, hf] at h
    exact Option.noConfusion h
  | some fd =>
    match hmt : fd.message_type with
    | [] =>
      simp only [nodeOf, hf, hmt] at h
      exact Option.noConfusion h
    | mt :: mts =>
      match hsch : schemas n with
      | none =>
        simp only [nodeOf, hf, hmt, hsch] at h
        exact Option.noConfusion h
      | some sch =>
        match hrec : recur fd fds schemas with
        | .error e =>
          simp only [nodeOf, hf, hmt, hsch, hrec] at h
          exact Option.noConfusion h
        | .ok subs =>
          simp only [nodeOf, hf, hmt, hsch, hrec, Option.some.injEq] at h
          rw [← h]
          rfl

theorem foldDependencies_ok_nodes
    (recur : FileDescriptorProto → List FileDescriptorProto →
      (String → Option String) → Except String (List SuppliedReference))
    (fds : List FileDescriptorProto) (schemas : String → Option String) :
    ∀ l refs, foldDependencies recur fds schemas l = .ok refs →
      refs.length = l.length ∧
      ∀ i (hl : i < l.length) (hr : i < refs.length),
        nodeOf recur fds schemas (l.get ⟨i, hl⟩) = some (refs.get ⟨i, hr⟩) := by
  intro l
  induction l with
  | nil =>
    intro refs h
    simp only [foldDependencies, Except.ok.injEq] at h
    subst h
    exact ⟨rfl, fun i hl => by simp at hl⟩
  | cons n rest ih =>
    intro refs h
    match hf : fds.find? (fun dep => dep.name == some n) with
    | none =>
      simp only [foldDependencies, hf] at h
      exact Except.noConfusion h
    | some fd =>
      match hmt : fd.message_type with
      | [] =>
        simp only [foldDependencies, hf, hmt] at h
        exact Except.noConfusion h
      | mt :: mts =>
        match hsch : schemas n with
        | none =>
          simp only [foldDependencies, hf, hmt, hsch] at h
          exact Except.noConfusion h
        | some sch =>
          match hrec : recur fd fds schemas with
          | .error e =>
            simp only [foldDependencies, hf, hmt, hsch, hrec] at h
            exact Except.noConfusion h
          | .ok subs =>
            match htl : foldDependencies recur fds schemas rest with
            | .error e =>
              simp only [foldDependencies, hf, hmt, hsch, hrec, htl] at h
              exact Except.noConfusion h
            | .ok tail =>
              simp only [foldDependencies, hf, hmt, hsch, hrec, htl,
                Except.ok.injEq] at h
              subst h
              obtain ⟨hlen, hnodes⟩ := ih tail htl
              constructor
              · simp [hlen]
              · intro i hl hr
                match i with
                | 0 =>
                  simp only [List.get]
                  simp only [nodeOf, hf, hmt, hsch, hrec]
                | i + 1 =>
                  simp only [List.get]
                  exact hnodes i (by simpa using hl) (by simpa using hr)

theorem foldDependencies_unresolved
    (recur : FileDescriptorProto → List FileDescriptorProto →
      (String → Option String) → Except String (List SuppliedReference))
    (fds : List FileDescriptorProto) (schemas : String → Option String)
    (n : String) (hnone : ∀ r ∈ fds, r.name ≠ some n) :
    ∀ l, n ∈ l → ∃ e, foldDependencies recur fds schemas l = .error e := by
  intro l
  induction l with
  | nil => intro h; simp at h
  | cons x rest ih =>
    intro hmem
    rcases List.mem_cons.mp hmem with heq | htl
    · subst heq
      have hfind : fds.find? (fun dep => dep.name == some n) = none := by
        rw [List.find?_eq_none]
        intro r hr
        simp only [beq_iff_eq]
        exact hnone r hr
      have he : foldDependencies recur fds schemas (n :: rest) =
          .error ("failed to locate file for dependency: " ++ n) := by
        simp only [foldDependencies, hfind]
      exact ⟨_, he⟩
    · match hf : fds.find? (fun dep => dep.name == some x) with
      | none =>
        have he : foldDependencies recur fds schemas (x :: rest) =
            .error ("failed to locate file for dependency: " ++ x) := by
          simp only [foldDependencies, hf]
        exact ⟨_, he⟩
      | some fd =>
        match hmt : fd.message_type with
        | [] =>
          have he : foldDependencies recur fds schemas (x :: rest) =
              .error ("failed to locate a top-level message type in: " ++ x) := by
            simp only [foldDependencies, hf, hmt]
          exact ⟨_, he⟩
        | mt :: mts =>
          match hsch : schemas x with
          | none =>
            have he : foldDependencies recur fds schemas (x :: rest) =
                .error ("failed to locate schema for: " ++ x) := by
              simp only [foldDependencies, hf, hmt, hsch]
            exact ⟨_, he⟩
          | some sch =>
            match hrec : recur fd fds schemas with
            | .error e =>
              have he : foldDependencies recur fds schemas (x :: rest) = .error e := by
                simp only [foldDependencies, hf, hmt, hsch, hrec]
              exact ⟨e, he⟩
            | .ok subs =>
              obtain ⟨e, he⟩ := ih htl
              have he' : foldDependencies recur fds schemas (x :: rest) = .error e := by
                simp only [foldDependencies, hf, hmt, hsch, hrec, he]
              exact ⟨e, he'⟩

theorem foldDependencies_no_message
    (recur : FileDescriptorProto → List FileDescriptorProto →
      (String → Option String) → Except String (List SuppliedReference))
    (fds : List FileDescriptorProto) (schemas : String → Option String)
    (n : String) (r : FileDescriptorProto)
    (hfind : fds.find? (fun dep => dep.name == some n) = some r)
    (hmt : r.message_type = []) :
    ∀ l, n ∈ l → ∃ e, foldDependencies recur fds schemas l = .error e := by
  intro l
  induction l with
  | nil => intro h; simp at h
  | cons x rest ih =>
    intro hmem
    rcases List.mem_cons.mp hmem with heq | htl
    · subst heq
      have he : foldDependencies recur fds schemas (n :: rest) =
          .error ("failed to locate a top-level message type in: " ++ n) := by
        simp only [foldDependencies, hfind, hmt]
      exact ⟨_, he⟩
    · match hf : fds.find? (fun dep => dep.name == some x) with
      | none =>
        have he : foldDependencies recur fds schemas (x :: rest) =
            .error ("failed to locate file for dependency: " ++ x) := by
          simp only [foldDependencies, hf]
        exact ⟨_, he⟩
      | some fd =>
        match hmtx : fd.message_type with
        | [] =>
          have he : foldDependencies recur fds schemas (x :: rest) =
              .error ("failed to locate a top-level message type in: " ++ x) := by
            simp only [foldDependencies, hf, hmtx]
          exact ⟨_, he⟩
        | mt :: mts =>
          match hsch : schemas x with
          | none =>
            have he : foldDependencies recur fds schemas (x :: rest) =
                .error ("failed to locate schema for: " ++ x) := by
              simp only [foldDependencies, hf, hmtx, hsch]
            exact ⟨_, he⟩
          | some sch =>
            match hrec : recur fd fds schemas with
            | .error e =>
              have he : foldDependencies recur fds schemas (x :: rest) = .error e := by
                simp only [foldDependencies, hf, hmtx, hsch, hrec]
              exact ⟨e, he⟩
            | .ok subs =>
              obtain ⟨e, he⟩ := ih htl
              have he' : foldDependencies recur fds schemas (x :: rest) = .error e := by
                simp only [foldDependencies, hf, hmtx, hsch, hrec, he]
              exact ⟨e, he'⟩

/-- Under a strictly decreasing measure (acyclicity) and well-formed
dependencies, the builder succeeds, and its result does not depend on
the recursion depth counter once the counter exceeds the measure. -/
theorem getRefs_acyclic
    (mm : FileDescriptorProto → Nat) (fd : FileDescriptorProto)
    (fds : List FileDescriptorProto) (schemas : String → Option String)
    (H : ∀ g ∈ fd :: fds, ∀ n ∈ g.dependency,
      goodDep mm fds schemas g n = true) :
    ∀ k g, (g = fd ∨ g ∈ fds) → mm g < k →
      ∃ refs, ∀ fuel, mm g < fuel →
        get_protobuf_references fuel g fds schemas = .ok refs := by
  intro k
  induction k with
  | zero => intro g _ hk; omega
  | succ k ih =>
    intro g hrel hk
    have main : ∀ l, (∀ n ∈ l, goodDep mm fds schemas g n = true) →
        ∃ refs, ∀ fuel₀, mm g ≤ fuel₀ →
          foldDependencies (get_protobuf_references fuel₀) fds schemas l =
            .ok refs := by
      intro l
      induction l with
      | nil => exact fun _ => ⟨[], fun _ _ => rfl⟩
      | cons n rest ihl =>
        intro hl
        have hgood : goodDep mm fds schemas g n = true :=
          hl n (List.mem_cons_self n rest)
        match hfind : fds.find? (fun dep => dep.name == some n) with
        | none =>
          simp only [goodDep, hfind] at hgood
          exact Bool.noConfusion hgood
        | some r =>
          simp only [goodDep, hfind] at hgood
          obtain ⟨h12, h3⟩ := Bool.and_eq_true_iff.mp hgood
          obtain ⟨h1, h2⟩ := Bool.and_eq_true_iff.mp h12
          have hmr : mm r < mm g := of_decide_eq_true h1
          have hmt : r.message_type ≠ [] := of_decide_eq_true h2
          have hrel' : r = fd ∨ r ∈ fds :=
            Or.inr (List.mem_of_find?_eq_some hfind)
          obtain ⟨subs, hsubs⟩ := ih r hrel' (by omega)
          obtain ⟨tail, htail⟩ := ihl (fun x hx => hl x (List.mem_cons_of_mem n hx))
          match hmtc : r.message_type with
          | [] => exact absurd hmtc hmt
          | mt :: mts =>
            match hsch : schemas n with
            | none => rw [hsch] at h3; exact absurd h3 (by simp)
            | some sch =>
              refine ⟨SuppliedReference.mk n (subjectOf r mt) sch subs :: tail, ?_⟩
              intro fuel₀ hf
              have hsub : get_protobuf_references fuel₀ r fds schemas = .ok subs :=
                hsubs fuel₀ (by omega)
              have htl : foldDependencies (get_protobuf_references fuel₀) fds
                  schemas rest = .ok tail := htail fuel₀ hf
              simp only [foldDependencies, hfind, hmtc, hsch, hsub, htl]
    obtain ⟨refs, hrefs⟩ := main g.dependency (H g (List.mem_cons.mpr hrel))
    refine ⟨refs, ?_⟩
    intro fuel hfuel
    match fuel with
    | 0 => omega
    | fuel₀ + 1 =>
      have hfold : foldDependencies (get_protobuf_references fuel₀) fds schemas
          g.dependency = .ok refs := hrefs fuel₀ (by omega)
      simp only [get_protobuf_references, hfold]

theorem countPairsList_of_ok
    (recur : FileDescriptorProto → List FileDescriptorProto →
      (String → Option String) → Except String (List SuppliedReference))
    (recurC : FileDescriptorProto → List FileDescriptorProto → Option Nat)
    (fds : List FileDescriptorProto) (schemas : String → Option String)
    (Hrec : ∀ r subs, recur r fds schemas = .ok subs →
      recurC r fds = some (sizeRefs subs)) :
    ∀ l refs, foldDependencies recur fds schemas l = .ok refs →
      countPairsList recurC l fds = some (sizeRefs refs) := by
  intro l
  induction l with
  | nil =>
    intro refs h
    simp only [foldDependencies, Except.ok.injEq] at h
    subst h
    simp only [countPairsList, sizeRefs]
  | cons n rest ih =>
    intro refs h
    match hf : fds.find? (fun dep => dep.name == some n) with
    | none =>
      simp only [foldDependencies, hf] at h
      exact Except.noConfusion h
    | some fd =>
      match hmt : fd.message_type with
      | [] =>
        simp only [foldDependencies, hf, hmt] at h
        exact Except.noConfusion h
      | mt :: mts =>
        match hsch : schemas n with
        | none =>
          simp only [foldDependencies, hf, hmt, hsch] at h
          exact Except.noConfusion h
        | some sch =>
          match hrec : recur fd fds schemas with
          | .error e =>
            simp only [foldDependencies, hf, hmt, hsch, hrec] at h
            exact Except.noConfusion h
          | .ok subs =>
            match htl : foldDependencies recur fds schemas rest with
            | .error e =>
              simp only [foldDependencies, hf, hmt, hsch, hrec, htl] at h
              exact Except.noConfusion h
            | .ok tail =>
              simp only [foldDependencies, hf, hmt, hsch, hrec, htl,
                Except.ok.injEq] at h
              subst h
              have hc := Hrec fd subs hrec
              have ht := ih tail htl
              simp only [countPairsList, hf, hc, ht, sizeRefs]

theorem specPairCount_of_ok :
    ∀ fuel (fd : FileDescriptorProto) (fds : List FileDescriptorProto)
      (schemas : String → Option String) refs,
      get_protobuf_references fuel fd fds schemas = .ok refs →
        specPairCount fuel fd fds = some (sizeRefs refs) := by
  intro fuel
  induction fuel with
  | zero =>
    intro fd fds schemas refs h
    exact Except.noConfusion h
  | succ fuel ih =>
    intro fd fds schemas refs h
    have h' : foldDependencies (get_protobuf_references fuel) fds schemas
        fd.dependency = .ok refs := h
    simp only [specPairCount]
    exact countPairsList_of_ok _ _ fds schemas
      (fun r subs hr => ih r fds schemas subs hr) fd.dependency refs h'

theorem buildSchemas_ok (stripc : Bool) (disk : String → Option String) :
    ∀ files m₀, (∀ fd ∈ files, ∃ nm, fd.name = some nm ∧ (disk nm).isSome) →
      ∃ schemas, buildSchemas stripc disk files m₀ = .ok schemas := by
  intro files
  induction files with
  | nil => intro m₀ _; exact ⟨m₀, rfl⟩
  | cons fd rest ih =>
    intro m₀ hgood
    obtain ⟨nm, hnm, hdisk⟩ := hgood fd (List.mem_cons_self fd rest)
    match hd : disk nm with
    | none => rw [hd] at hdisk; exact absurd hdisk (by simp)
    | some text =>
      obtain ⟨schemas, hs⟩ :=
        ih (fun k =>
          if k = nm then some (if stripc then stripString text else text)
          else m₀ k)
          (fun x hx => hgood x (List.mem_cons_of_mem fd hx))
      refine ⟨schemas, ?_⟩
      simp only [buildSchemas, hnm, hd, hs]

/-! ## Claim theorems -/

/-- Claim C1, counterexample: the comment stripper is not idempotent.
On the text "//**//" the single block-comment match "/**/" sits between
two slashes; removing it joins them into a new line-comment marker, so
the first pass returns "//" and the second pass returns "". -/
theorem strip_comments_not_idempotent_cex :
    strip_comments (strip_comments ['/', '/', '*', '*', '/', '/']) ≠
      strip_comments ['/', '/', '*', '*', '/', '/'] := by decide

/-- Claim C1 (amended): the comment stripper is idempotent on every
input with no block-comment match (in particular on every input with no
block comment); removing a block comment can join the characters around
it into a new line-comment marker, so idempotence does not hold in
general. -/
theorem strip_comments_idempotent_of_no_block (s : List Char)
    (h : hasBlock s = false) :
    strip_comments (strip_comments s) = strip_comments s := by
  rw [strip_comments_of_no_block s h,
    strip_comments_of_no_block (stripLine s) (hasBlock_stripLine_false s h)]
  exact stripLine_idem s

theorem strip_comments_idempotent_of_no_block_witness :
    hasBlock ['a', '/', '/', 'b', '\n', 'c'] = false ∧
      strip_comments (strip_comments ['a', '/', '/', 'b', '\n', 'c']) =
        strip_comments ['a', '/', '/', 'b', '\n', 'c'] :=
  ⟨by decide, strip_comments_idempotent_of_no_block _ (by decide)⟩

/-- Claim C9: on a text with no match of either comment regex (no
block-comment match and no line-comment marker), the stripper returns
its input unchanged. -/
theorem strip_comments_identity_of_no_comment (s : List Char)
    (h1 : hasBlock s = false) (h2 : hasSub2 '/' '/' s = false) :
    strip_comments s = s := by
  rw [strip_comments_of_no_block s h1]
  exact stripLine_of_no_dslash s h2

theorem strip_comments_identity_of_no_comment_witness :
    hasBlock ['a', '/', 'b', '*', '/', 'c'] = false ∧
      hasSub2 '/' '/' ['a', '/', 'b', '*', '/', 'c'] = false ∧
      strip_comments ['a', '/', 'b', '*', '/', 'c'] =
        ['a', '/', 'b', '*', '/', 'c'] :=
  ⟨by decide, by decide,
    strip_comments_identity_of_no_comment _ (by decide) (by decide)⟩

/-- Claim C8: a line-comment marker that sits textually inside a
block-comment span is never separately processed.  For any
decomposition text = a ++ "/\x2a" ++ b ++ "\x2a/" ++ c in which the
block comment shown is the leftmost match (no opener in a, no closer in
b), the whole span is dropped by block-comment removal alone — whatever
b contains — and the line-comment pass runs only on the gap before the
match and on the text after it. -/
theorem strip_comments_line_marker_inside_block (a b c : List Char)
    (ha : hasSub2 '/' '*' a = false) (hb : hasSub2 '*' '/' b = false) :
    strip_comments (a ++ '/' :: '*' :: (b ++ '*' :: '/' :: c)) =
      stripLine a ++ strip_comments c := by
  rw [strip_comments_eq]
  simp only [findOpen_append a _ ha, findClose_append b c hb]

theorem strip_comments_line_marker_inside_block_witness :
    hasSub2 '/' '*' ['x'] = false ∧
      hasSub2 '*' '/' [' ', '/', '/', ' ', 'h'] = false ∧
      strip_comments
          (['x'] ++ '/' :: '*' :: ([' ', '/', '/', ' ', 'h'] ++ '*' :: '/' :: ['y'])) =
        stripLine ['x'] ++ strip_comments ['y'] :=
  ⟨by decide, by decide,
    strip_comments_line_marker_inside_block _ _ _ (by decide) (by decide)⟩

/-- Claim C2: whenever the builder succeeds, the returned reference
list mirrors the dependency list of the descriptor: same length, same
order, and the i-th reference carries exactly the i-th dependency
name. -/
theorem get_protobuf_references_mirrors_dependencies
    (fuel : Nat) (fd : FileDescriptorProto) (fds : List FileDescriptorProto)
    (schemas : String → Option String) (refs : List SuppliedReference)
    (h : get_protobuf_references fuel fd fds schemas = .ok refs) :
    refs.length = fd.dependency.length ∧
    ∀ i (hr : i < refs.length) (hd : i < fd.dependency.length),
      (refs.get ⟨i, hr⟩).name = fd.dependency.get ⟨i, hd⟩ := by
  match fuel with
  | 0 => exact Except.noConfusion h
  | fuel + 1 =>
    have h' : foldDependencies (get_protobuf_references fuel) fds schemas
        fd.dependency = .ok refs := h
    obtain ⟨hlen, hnodes⟩ :=
      foldDependencies_ok_nodes _ fds schemas fd.dependency refs h'
    refine ⟨hlen, ?_⟩
    intro i hr hd
    exact nodeOf_name _ fds schemas _ _ (hnodes i hd hr)

/-- Diamond fixture: root imports y and z, both import the shared w. -/
def wFd : FileDescriptorProto := ⟨some "w.proto", some "pkg", [], [⟨some "W"⟩]⟩

def yFd : FileDescriptorProto :=
  ⟨some "y.proto", some "pkg", ["w.proto"], [⟨some "Y"⟩]⟩

def zFd : FileDescriptorProto := ⟨some "z.proto", none, ["w.proto"], [⟨some "Z"⟩]⟩

def rootFd : FileDescriptorProto :=
  ⟨some "root.proto", some "pkg", ["y.proto", "z.proto"], [⟨some "R"⟩]⟩

def diamondFds : List FileDescriptorProto := [wFd, yFd, zFd]

def diamondSchemas : String → Option String := fun n =>
  if n = "w.proto" then some "tw"
  else if n = "y.proto" then some "ty"
  else if n = "z.proto" then some "tz"
  else if n = "root.proto" then some "tr"
  else none

def diamondRefs : List SuppliedReference :=
  [SuppliedReference.mk "y.proto" "pkg.Y" "ty"
      [SuppliedReference.mk "w.proto" "pkg.W" "tw" []],
   SuppliedReference.mk "z.proto" "Z" "tz"
      [SuppliedReference.mk "w.proto" "pkg.W" "tw" []]]

theorem get_protobuf_references_mirrors_dependencies_witness :
    diamondRefs.length = rootFd.dependency.length :=
  (get_protobuf_references_mirrors_dependencies 3 rootFd diamondFds
    diamondSchemas diamondRefs rfl).1

/-- Claim C5: a dependency name with no matching descriptor in the
supplied list makes the builder fail — it returns an error and never a
truncated reference list, and when that entry is the first one
processed the error is exactly the resolution error. -/
theorem get_protobuf_references_unresolved_dependency_fails
    (fuel : Nat) (fd : FileDescriptorProto) (fds : List FileDescriptorProto)
    (schemas : String → Option String) (n : String)
    (hmem : n ∈ fd.dependency) (hnone : ∀ r ∈ fds, r.name ≠ some n) :
    (∃ e, get_protobuf_references fuel fd fds schemas = .error e) ∧
    (∀ refs, get_protobuf_references fuel fd fds schemas ≠ .ok refs) ∧
    (fd.dependency.head? = some n → 0 < fuel →
      get_protobuf_references fuel fd fds schemas =
        .error ("failed to locate file for dependency: " ++ n)) := by
  have hmain : ∃ e, get_protobuf_references fuel fd fds schemas = .error e := by
    match fuel with
    | 0 => exact ⟨_, rfl⟩
    | fuel + 1 =>
      obtain ⟨e, he⟩ := foldDependencies_unresolved
        (get_protobuf_references fuel) fds schemas n hnone fd.dependency hmem
      exact ⟨e, he⟩
  obtain ⟨e, he⟩ := hmain
  refine ⟨⟨e, he⟩, ?_, ?_⟩
  · intro refs hok
    rw [he] at hok
    exact Except.noConfusion hok
  · intro hhead hfuel
    match fuel with
    | 0 => omega
    | fuel + 1 =>
      match hd : fd.dependency with
      | [] => rw [hd] at hhead; exact Option.noConfusion hhead
      | m :: rest =>
        rw [hd] at hhead
        injection hhead with hhead
        subst hhead
        have hfind : fds.find? (fun dep => dep.name == some m) = none := by
          rw [List.find?_eq_none]
          intro r hr
          simp only [beq_iff_eq]
          exact hnone r hr
        show foldDependencies (get_protobuf_references fuel) fds schemas
          fd.dependency = _
        rw [hd]
        simp only [foldDependencies, hfind]

theorem get_protobuf_references_unresolved_dependency_fails_witness :
    get_protobuf_references 2 ⟨some "a.proto", none, ["missing.proto"], []⟩
      diamondFds diamondSchemas ≠ .ok [] :=
  (get_protobuf_references_unresolved_dependency_fails 2
    ⟨some "a.proto", none, ["missing.proto"], []⟩ diamondFds diamondSchemas
    "missing.proto" (by decide) (by decide)).2.1 []

/-- Claim C7: a dependency that resolves to a descriptor with no
top-level message type makes the builder fail (subject derivation needs
a leading message type). -/
theorem get_protobuf_references_missing_message_type_fails
    (fuel : Nat) (fd : FileDescriptorProto) (fds : List FileDescriptorProto)
    (schemas : String → Option String) (n : String) (r : FileDescriptorProto)
    (hmem : n ∈ fd.dependency)
    (hfind : fds.find? (fun dep => dep.name == some n) = some r)
    (hmt : r.message_type = []) :
    (∃ e, get_protobuf_references fuel fd fds schemas = .error e) ∧
    ∀ refs, get_protobuf_references fuel fd fds schemas ≠ .ok refs := by
  have hmain : ∃ e, get_protobuf_references fuel fd fds schemas = .error e := by
    match fuel with
    | 0 => exact ⟨_, rfl⟩
    | fuel + 1 =>
      obtain ⟨e, he⟩ := foldDependencies_no_message
        (get_protobuf_references fuel) fds schemas n r hfind hmt
        fd.dependency hmem
      exact ⟨e, he⟩
  obtain ⟨e, he⟩ := hmain
  refine ⟨⟨e, he⟩, ?_⟩
  intro refs hok
  rw [he] at hok
  exact Except.noConfusion hok

theorem get_protobuf_references_missing_message_type_fails_witness :
    get_protobuf_references 2 ⟨some "a.proto", none, ["e.proto"], []⟩
      [⟨some "e.proto", none, [], []⟩] diamondSchemas ≠ .ok [] :=
  (get_protobuf_references_missing_message_type_fails 2
    ⟨some "a.proto", none, ["e.proto"], []⟩ [⟨some "e.proto", none, [], []⟩]
    diamondSchemas "e.proto" ⟨some "e.proto", none, [], []⟩
    (by decide) (by decide) (by decide)).2 []

/-- Claim C6: subject derivation for a dependency.  A resolved file
with package p whose first top-level message type is msg yields the
subject p ++ "." ++ msg, and one with an absent package yields just
msg. -/
theorem get_protobuf_references_subject_derivation
    (n p msg sch : String) (mts : List DescriptorProto) :
    (get_protobuf_references 2 ⟨none, none, [n], []⟩
        [⟨some n, some p, [], ⟨some msg⟩ :: mts⟩]
        (fun k => if k = n then some sch else none) =
      .ok [SuppliedReference.mk n (p ++ "." ++ msg) sch []]) ∧
    (get_protobuf_references 2 ⟨none, none, [n], []⟩
        [⟨some n, none, [], ⟨some msg⟩ :: mts⟩]
        (fun k => if k = n then some sch else none) =
      .ok [SuppliedReference.mk n msg sch []]) := by
  constructor <;>
    simp [get_protobuf_references, foldDependencies, List.find?, subjectOf,
      joinDot, Option.toList]

/-- Claim C10: on an acyclic dependency graph (witnessed by a strictly
decreasing measure) with resolvable, well-shaped dependencies, the
builder terminates with a success that no longer depends on the
recursion depth counter; the resulting forest has one root node per
dependency entry, its total node count equals the spec count of
(descriptor, appearance) pairs taken once per referencing path, and two
entries naming the same file receive equal subtrees (shared
dependencies are duplicated, not deduplicated). -/
theorem get_protobuf_references_acyclic_tree
    (mm : FileDescriptorProto → Nat) (fd : FileDescriptorProto)
    (fds : List FileDescriptorProto) (schemas : String → Option String)
    (H : ∀ g ∈ fd :: fds, ∀ n ∈ g.dependency,
      goodDep mm fds schemas g n = true) :
    ∃ refs,
      (∀ fuel, mm fd < fuel →
        get_protobuf_references fuel fd fds schemas = .ok refs) ∧
      refs.length = fd.dependency.length ∧
      specPairCount (mm fd + 1) fd fds = some (sizeRefs refs) ∧
      ∀ i j (hi : i < refs.length) (hj : j < refs.length)
        (hdi : i < fd.dependency.length) (hdj : j < fd.dependency.length),
        fd.dependency.get ⟨i, hdi⟩ = fd.dependency.get ⟨j, hdj⟩ →
        refs.get ⟨i, hi⟩ = refs.get ⟨j, hj⟩ := by
  obtain ⟨refs, hrefs⟩ := getRefs_acyclic mm fd fds schemas H (mm fd + 1) fd
    (Or.inl rfl) (by omega)
  have hok : get_protobuf_references (mm fd + 1) fd fds schemas = .ok refs :=
    hrefs _ (by omega)
  have h' : foldDependencies (get_protobuf_references (mm fd)) fds schemas
      fd.dependency = .ok refs := hok
  obtain ⟨hlen, hnodes⟩ :=
    foldDependencies_ok_nodes _ fds schemas fd.dependency refs h'
  refine ⟨refs, hrefs, hlen, specPairCount_of_ok _ fd fds schemas refs hok, ?_⟩
  intro i j hi hj hdi hdj hname
  have h1 := hnodes i hdi hi
  have h2 := hnodes j hdj hj
  rw [hname] at h1
  exact Option.some.inj (h1.symm.trans h2)

/-- The acyclicity measure for the diamond fixture. -/
def diamondMeasure : FileDescriptorProto → Nat := fun g =>
  if g.name = some "w.proto" then 0
  else if g.name = some "root.proto" then 2
  else 1

theorem get_protobuf_references_acyclic_tree_witness :
    specPairCount 3 rootFd diamondFds = some 4 := by
  obtain ⟨refs, h1, h2, h3, h4⟩ := get_protobuf_references_acyclic_tree
    diamondMeasure rootFd diamondFds diamondSchemas (by decide)
  have hms : diamondMeasure rootFd = 2 := rfl
  rw [hms] at h1 h3
  have hok : get_protobuf_references 3 rootFd diamondFds diamondSchemas =
      .ok refs := h1 3 (by omega)
  have hok' : get_protobuf_references 3 rootFd diamondFds diamondSchemas =
      .ok diamondRefs := rfl
  have heq : refs = diamondRefs := Except.ok.inj (hok.symm.trans hok')
  rw [heq] at h3
  have hsz : sizeRefs diamondRefs = 4 := by simp [diamondRefs, sizeRefs]
  rw [hsz] at h3
  exact h3

/-- Destructuring an optional-name disk lookup that is known to
succeed. -/
theorem bind_isSome_elim (o : Option String) (disk : String → Option String)
    (h : (o.bind disk).isSome = true) :
    ∃ nm, o = some nm ∧ (disk nm).isSome = true := by
  match o with
  | none => simp at h
  | some nm => exact ⟨nm, rfl, by simpa using h⟩

def c3File : FileDescriptorProto :=
  ⟨some "f.proto", none, ["r.proto"], [⟨some "F"⟩]⟩

def c3Root : FileDescriptorProto := ⟨some "r.proto", none, [], [⟨some "R"⟩]⟩

def c3RootSelf : FileDescriptorProto :=
  ⟨some "r.proto", none, ["r.proto"], [⟨some "R"⟩]⟩

def c3Disk : String → Option String := fun n =>
  if n = "f.proto" then some "A"
  else if n = "r.proto" then some "B"
  else none

/-- Claim C3, counterexample: a descriptor set in which some file (here
f.proto) names the root descriptor (last element, r.proto) in its
dependency list, yet assembly succeeds — f.proto is not reachable from
the root, so the dependency on the root name is never resolved and no
resolution error arises. -/
theorem post_protobuf_schema_unreachable_root_name_ok :
    "r.proto" ∈ c3File.dependency ∧ c3Root.name = some "r.proto" ∧
      post_protobuf_schema false [c3File, c3Root] c3Disk "r.proto" 2 =
        .ok ⟨none, SchemaType.Protobuf, "B", []⟩ :=
  ⟨by decide, rfl, rfl⟩

/-- Claim C3 (amended): post_protobuf_schema takes the root positionally as
the last descriptor and resolves references against the remaining ones
only; hence when a dependency naming the root file is actually reached
during building — in particular when the root's own dependency list
names the root file and no remaining descriptor carries that name —
building fails, even though the full set contains a descriptor with
that name (the root itself). -/
theorem post_protobuf_schema_root_self_dependency_fails
    (stripc : Bool) (rest : List FileDescriptorProto)
    (root : FileDescriptorProto) (disk : String → Option String)
    (rfn : String) (fuel : Nat)
    (hname : root.name = some rfn)
    (hdep : rfn ∈ root.dependency)
    (hnone : ∀ r ∈ rest, r.name ≠ some rfn)
    (hdisk : ∀ fd ∈ rest ++ [root], (fd.name.bind disk).isSome = true) :
    (∃ e, post_protobuf_schema stripc (rest ++ [root]) disk rfn fuel =
      .error e) ∧
    ∀ s, post_protobuf_schema stripc (rest ++ [root]) disk rfn fuel ≠
      .ok s := by
  obtain ⟨schemas, hs⟩ := buildSchemas_ok stripc disk (rest ++ [root])
    (fun _ => none)
    (fun fd hf => bind_isSome_elim fd.name disk (hdisk fd hf))
  have hlast : (rest ++ [root]).getLast? = some root := by simp
  have hdrop : (rest ++ [root]).dropLast = rest := by simp
  have hget : ∃ e, get_protobuf_references fuel root rest schemas =
      .error e := by
    match fuel with
    | 0 => exact ⟨_, rfl⟩
    | fuel + 1 =>
      exact foldDependencies_unresolved (get_protobuf_references fuel) rest
        schemas rfn hnone root.dependency hdep
  obtain ⟨eg, heg⟩ := hget
  obtain ⟨nm, hnm, hdsk⟩ :=
    bind_isSome_elim root.name disk (hdisk root (by simp))
  rw [hname] at hnm
  injection hnm with hnm
  subst hnm
  match hdr : disk rfn with
  | none => rw [hdr] at hdsk; exact absurd hdsk (by simp)
  | some text =>
    have hpost : post_protobuf_schema stripc (rest ++ [root]) disk rfn fuel =
        .error eg := by
      simp only [post_protobuf_schema, hs, hlast, hdrop, hname, hdr, heg,
        if_pos]
    refine ⟨⟨eg, hpost⟩, ?_⟩
    intro s hok
    rw [hpost] at hok
    exact Except.noConfusion hok

theorem post_protobuf_schema_root_self_dependency_fails_witness :
    post_protobuf_schema false ([c3File] ++ [c3RootSelf]) c3Disk "r.proto" 2 ≠
      .ok ⟨none, SchemaType.Protobuf, "B", []⟩ :=
  (post_protobuf_schema_root_self_dependency_fails false [c3File] c3RootSelf
    c3Disk "r.proto" 2 rfl (by decide) (by decide) (by decide)).2 _

/-- Claim C4: the assembled schema text is the raw on-disk text of the
root file, never comment-stripped, whatever the strip-comments option —
stripping only touches the schema texts carried by dependency
references; and a root file with no imports, with stripping disabled,
assembles to an empty reference list with the schema text exactly equal
to the on-disk contents. -/
theorem post_protobuf_schema_raw_root_schema :
    (∀ stripc files disk rfn fuel res,
        post_protobuf_schema stripc files disk rfn fuel = .ok res →
          disk rfn = some res.schema) ∧
    (∀ (root : FileDescriptorProto) rfn text disk fuel,
        root.name = some rfn → root.dependency = [] → disk rfn = some text →
          post_protobuf_schema false [root] disk rfn (fuel + 1) =
            .ok ⟨none, SchemaType.Protobuf, text, []⟩) := by
  constructor
  · intro stripc files disk rfn fuel res h
    match hb : buildSchemas stripc disk files (fun _ => none) with
    | .error e =>
      simp only [post_protobuf_schema, hb] at h
      exact Except.noConfusion h
    | .ok schemas =>
      match hl : files.getLast? with
      | none =>
        simp only [post_protobuf_schema, hb, hl] at h
        exact Except.noConfusion h
      | some root =>
        by_cases hn : root.name = some rfn
        · match hd : disk rfn with
          | none =>
            simp only [post_protobuf_schema, hb, hl, hn, hd, if_pos] at h
            exact Except.noConfusion h
          | some text =>
            match hg : get_protobuf_references fuel root files.dropLast
                schemas with
            | .error e =>
              simp only [post_protobuf_schema, hb, hl, hn, hd, hg, if_pos] at h
              exact Except.noConfusion h
            | .ok refs =>
              simp only [post_protobuf_schema, hb, hl, hn, hd, hg, if_pos,
                Except.ok.injEq] at h
              subst h
              rfl
        · simp only [post_protobuf_schema, hb, hl, if_neg hn] at h
          exact Except.noConfusion h
  · intro root rfn text disk fuel hname hdep hdisk
    obtain ⟨schemas, hb⟩ := buildSchemas_ok false disk [root] (fun _ => none)
      (fun fd hf => by
        simp only [List.mem_singleton] at hf
        subst hf
        exact ⟨rfn, hname, by simp [hdisk]⟩)
    have hg : get_protobuf_references (fuel + 1) root [] schemas = .ok [] := by
      show foldDependencies (get_protobuf_references fuel) [] schemas
        root.dependency = .ok []
      rw [hdep]
      rfl
    have hlast : ([root] : List FileDescriptorProto).getLast? = some root := rfl
    have hdrop : ([root] : List FileDescriptorProto).dropLast = [] := rfl
    simp only [post_protobuf_schema, hb, hlast, hdrop, hname, hdisk, hg,
      if_pos]

theorem post_protobuf_schema_raw_root_schema_witness :
    c3Disk "r.proto" = some "B" ∧
      post_protobuf_schema false [c3Root] c3Disk "r.proto" 2 =
        .ok ⟨none, SchemaType.Protobuf, "B", []⟩ :=
  ⟨post_protobuf_schema_raw_root_schema.1 false [c3Root] c3Disk "r.proto" 2
      ⟨none, SchemaType.Protobuf, "B", []⟩ rfl,
    post_protobuf_schema_raw_root_schema.2 c3Root "r.proto" "B" c3Disk 1
      rfl rfl rfl⟩
